import Mathlib

/-!
Verification development for the cryptographic core of django-cryptography
(`django_cryptography/utils/crypto.py`).

Bytes are modelled as `List Nat` with values below 256.  External library
primitives (the AES block permutation, HMAC, hash digests) are modelled as
parameters; repository code is translated definition-by-definition from
`src/django_cryptography/utils/crypto.py`.  The `FernetSigner` class lives in
`django_cryptography/core/signing.py`, which is not among the provided source
files, so it is modelled from the specification (see `FernetSigner.sign`
below).
-/

abbrev Bytes := List Nat

/-- Pointwise XOR of two byte strings (truncating to the shorter). -/
def zipXor (a b : Bytes) : Bytes := List.zipWith (fun x y => x ^^^ y) a b

/-- Every entry is a real byte value. -/
def allBytes (x : Bytes) : Prop := ∀ b ∈ x, b < 256

instance (x : Bytes) : Decidable (allBytes x) := by
  unfold allBytes; infer_instance

theorem zipXor_length (a b : Bytes) : (zipXor a b).length = min a.length b.length := by
  simp [zipXor]

theorem zipXor_cancel (a b : Bytes) (h : a.length ≤ b.length) :
    zipXor (zipXor a b) b = a := by
  induction a generalizing b with
  | nil => simp [zipXor]
  | cons x xs ih =>
    cases b with
    | nil => simp at h
    | cons y ys =>
      simp only [zipXor, List.zipWith_cons_cons]
      have : x ^^^ y ^^^ y = x := by
        rw [Nat.xor_assoc, Nat.xor_self, Nat.xor_zero]
      rw [this]
      have := ih ys (by simpa using h)
      simpa [zipXor] using this

theorem zipXor_allBytes (a b : Bytes) (ha : allBytes a) (hb : allBytes b) :
    allBytes (zipXor a b) := by
  induction a generalizing b with
  | nil => intro v hv; simp [zipXor] at hv
  | cons x xs ih =>
    cases b with
    | nil => intro v hv; simp [zipXor] at hv
    | cons y ys =>
      intro v hv
      simp only [zipXor, List.zipWith_cons_cons, List.mem_cons] at hv
      rcases hv with hv | hv
      · subst hv
        exact Nat.xor_lt_two_pow (n := 8) (ha x (by simp)) (hb y (by simp))
      · exact ih ys (fun b hbm => ha b (by simp [hbm])) (fun b hbm => hb b (by simp [hbm])) v hv

/-- PKCS7 padding at the 16-byte AES block size, as applied by
`padding.PKCS7(algorithms.AES.block_size).padder()` in `_encrypt_from_parts`. -/
def pkcs7Pad (data : Bytes) : Bytes :=
  let n := 16 - data.length % 16
  data ++ List.replicate n n

/-- PKCS7 unpadding at the 16-byte block size, as applied by
`padding.PKCS7(algorithms.AES.block_size).unpadder()` in `decrypt`:
`none` models the ValueError raised at `unpadder.finalize()` (buffered data
not exactly one block, or a malformed final pad). -/
def pkcs7Unpad (data : Bytes) : Option Bytes :=
  if data.length = 0 ∨ data.length % 16 ≠ 0 then none
  else
    let n := data.getLastD 0
    if 1 ≤ n ∧ n ≤ 16 ∧ ∀ b ∈ data.drop (data.length - n), b = n
    then some (data.take (data.length - n))
    else none

theorem pkcs7Pad_length_mod (data : Bytes) : (pkcs7Pad data).length % 16 = 0 := by
  simp only [pkcs7Pad, List.length_append, List.length_replicate]
  omega

theorem pkcs7Pad_length_pos (data : Bytes) : 0 < (pkcs7Pad data).length := by
  simp only [pkcs7Pad, List.length_append, List.length_replicate]
  omega

theorem pkcs7Pad_allBytes (data : Bytes) (h : allBytes data) : allBytes (pkcs7Pad data) := by
  intro b hb
  simp only [pkcs7Pad, List.mem_append, List.mem_replicate] at hb
  rcases hb with hb | ⟨-, hb⟩
  · exact h b hb
  · omega

theorem pkcs7_roundtrip (d : Bytes) : pkcs7Unpad (pkcs7Pad d) = some d := by
  have hn1 : 1 ≤ 16 - d.length % 16 := by omega
  have hn16 : 16 - d.length % 16 ≤ 16 := by omega
  have hlen : (pkcs7Pad d).length = d.length + (16 - d.length % 16) := by
    simp [pkcs7Pad]
  have hn0 : 16 - d.length % 16 ≠ 0 := by omega
  have hlast : (pkcs7Pad d).getLastD 0 = 16 - d.length % 16 := by
    unfold pkcs7Pad
    rw [List.getLastD_eq_getLast?, List.getLast?_append]
    simp [List.getLast?_replicate, hn0]
  unfold pkcs7Unpad
  rw [hlast]
  have hdrop : (pkcs7Pad d).drop ((pkcs7Pad d).length - (16 - d.length % 16)) =
      List.replicate (16 - d.length % 16) (16 - d.length % 16) := by
    unfold pkcs7Pad
    have : (d ++ List.replicate (16 - d.length % 16) (16 - d.length % 16)).length -
        (16 - d.length % 16) = d.length := by
      simp only [List.length_append, List.length_replicate]; omega
    rw [this, List.drop_left]
  have htake : (pkcs7Pad d).take ((pkcs7Pad d).length - (16 - d.length % 16)) = d := by
    unfold pkcs7Pad
    have : (d ++ List.replicate (16 - d.length % 16) (16 - d.length % 16)).length -
        (16 - d.length % 16) = d.length := by
      simp only [List.length_append, List.length_replicate]; omega
    rw [this, List.take_left]
  rw [if_neg, if_pos]
  · exact congrArg some htake
  · refine ⟨hn1, hn16, ?_⟩
    rw [hdrop]
    intro b hb
    exact (List.mem_replicate.mp hb).2
  · rw [hlen]; push_neg
    constructor <;> omega

/-- Model of the external AES block permutation family used through
`Cipher(algorithms.AES(key), modes.CBC(iv))`.  The library is not repository
code, so the keyed block maps are parameters; theorems assume they are
mutually inverse, length-preserving 16-byte permutations. -/
structure BlockCipherModel where
  encryptBlock : Bytes → Bytes → Bytes
  decryptBlock : Bytes → Bytes → Bytes

/-- Key lengths accepted by `algorithms.AES`; any other length makes the
`Cipher` constructor raise ValueError. -/
def aesValidKey (k : Bytes) : Prop := k.length = 16 ∨ k.length = 24 ∨ k.length = 32

instance (k : Bytes) : Decidable (aesValidKey k) := by
  unfold aesValidKey; infer_instance

/-- CBC-mode encryption over 16-byte blocks, structured with a fuel
argument (one unit per input byte) so the recursion is structural: each
plaintext block is XORed with the previous ciphertext block (initially the
IV) and passed through the block cipher. -/
def cbcEncryptAux (E : Bytes → Bytes) : Nat → Bytes → Bytes → Bytes
  | 0, _, _ => []
  | fuel + 1, prev, data =>
    if data = [] then []
    else
      let c := E (zipXor (data.take 16) prev)
      c ++ cbcEncryptAux E fuel c (data.drop 16)

/-- CBC-mode encryption of a whole (padded) plaintext. -/
def cbcEncrypt (E : Bytes → Bytes) (prev data : Bytes) : Bytes :=
  cbcEncryptAux E data.length prev data

/-- CBC-mode decryption over 16-byte blocks, fuelled like `cbcEncryptAux`. -/
def cbcDecryptAux (D : Bytes → Bytes) : Nat → Bytes → Bytes → Bytes
  | 0, _, _ => []
  | fuel + 1, prev, ct =>
    if ct = [] then []
    else
      zipXor (D (ct.take 16)) prev ++ cbcDecryptAux D fuel (ct.take 16) (ct.drop 16)

/-- CBC-mode decryption of a whole ciphertext. -/
def cbcDecrypt (D : Bytes → Bytes) (prev ct : Bytes) : Bytes :=
  cbcDecryptAux D ct.length prev ct

theorem cbcEncryptAux_fuel (E : Bytes → Bytes) :
    ∀ fuel fuel' prev data, data.length ≤ fuel → data.length ≤ fuel' →
      cbcEncryptAux E fuel prev data = cbcEncryptAux E fuel' prev data := by
  intro fuel
  induction fuel with
  | zero =>
    intro fuel' prev data h h'
    have : data = [] := List.length_eq_zero.mp (Nat.le_zero.mp h)
    subst this
    cases fuel' <;> simp [cbcEncryptAux]
  | succ f ih =>
    intro fuel' prev data h h'
    by_cases hd : data = []
    · subst hd
      cases fuel' <;> simp [cbcEncryptAux]
    · have hpos : 0 < data.length := List.length_pos.mpr hd
      cases fuel' with
      | zero => omega
      | succ f' =>
        simp only [cbcEncryptAux, if_neg hd]
        congr 1
        apply ih
        · simp only [List.length_drop]; omega
        · simp only [List.length_drop]; omega

theorem cbcDecryptAux_fuel (D : Bytes → Bytes) :
    ∀ fuel fuel' prev ct, ct.length ≤ fuel → ct.length ≤ fuel' →
      cbcDecryptAux D fuel prev ct = cbcDecryptAux D fuel' prev ct := by
  intro fuel
  induction fuel with
  | zero =>
    intro fuel' prev ct h h'
    have : ct = [] := List.length_eq_zero.mp (Nat.le_zero.mp h)
    subst this
    cases fuel' <;> simp [cbcDecryptAux]
  | succ f ih =>
    intro fuel' prev ct h h'
    by_cases hd : ct = []
    · subst hd
      cases fuel' <;> simp [cbcDecryptAux]
    · have hpos : 0 < ct.length := List.length_pos.mpr hd
      cases fuel' with
      | zero => omega
      | succ f' =>
        simp only [cbcDecryptAux, if_neg hd]
        congr 1
        apply ih
        · simp only [List.length_drop]; omega
        · simp only [List.length_drop]; omega

theorem cbcEncrypt_nil (E : Bytes → Bytes) (prev : Bytes) : cbcEncrypt E prev [] = [] := rfl

theorem cbcEncrypt_eq (E : Bytes → Bytes) (prev data : Bytes) (h : data ≠ []) :
    cbcEncrypt E prev data = E (zipXor (data.take 16) prev) ++
      cbcEncrypt E (E (zipXor (data.take 16) prev)) (data.drop 16) := by
  have hpos : 0 < data.length := List.length_pos.mpr h
  unfold cbcEncrypt
  rcases hl : data.length with _ | n
  · omega
  · simp only [cbcEncryptAux, if_neg h]
    congr 1
    apply cbcEncryptAux_fuel
    · simp only [List.length_drop]; omega
    · exact Nat.le_refl _

theorem cbcDecrypt_nil (D : Bytes → Bytes) (prev : Bytes) : cbcDecrypt D prev [] = [] := rfl

theorem cbcDecrypt_eq (D : Bytes → Bytes) (prev ct : Bytes) (h : ct ≠ []) :
    cbcDecrypt D prev ct = zipXor (D (ct.take 16)) prev ++
      cbcDecrypt D (ct.take 16) (ct.drop 16) := by
  have hpos : 0 < ct.length := List.length_pos.mpr h
  unfold cbcDecrypt
  rcases hl : ct.length with _ | n
  · omega
  · simp only [cbcDecryptAux, if_neg h]
    congr 1
    apply cbcDecryptAux_fuel
    · simp only [List.length_drop]; omega
    · exact Nat.le_refl _

theorem cbcEncrypt_length (E : Bytes → Bytes)
    (hE : ∀ b : Bytes, b.length = 16 → (E b).length = 16) :
    ∀ (data prev : Bytes), prev.length = 16 → data.length % 16 = 0 →
      (cbcEncrypt E prev data).length = data.length := by
  have main : ∀ n (data : Bytes), data.length = n → ∀ prev : Bytes, prev.length = 16 →
      data.length % 16 = 0 → (cbcEncrypt E prev data).length = data.length := by
    intro n
    induction n using Nat.strong_induction_on with
    | _ n ih =>
    intro data hn prev hprev hmod
    by_cases hnil : data = []
    · simp [hnil, cbcEncrypt_nil]
    · have hpos : 0 < data.length := List.length_pos.mpr hnil
      have h16 : 16 ≤ data.length := by omega
      have hblock : (data.take 16).length = 16 := by
        simp [List.length_take]; omega
      have hx : (zipXor (data.take 16) prev).length = 16 := by
        rw [zipXor_length, hblock, hprev]; simp
      have hc : (E (zipXor (data.take 16) prev)).length = 16 := hE _ hx
      rw [cbcEncrypt_eq E prev data hnil]
      simp only [List.length_append, hc]
      have hrec := ih (data.length - 16) (by omega) (data.drop 16)
        (by simp [List.length_drop, hn]) (E (zipXor (data.take 16) prev)) hc
        (by simp [List.length_drop]; omega)
      rw [hrec]
      simp [List.length_drop]
      omega
  intro data prev hprev hmod
  exact main data.length data rfl prev hprev hmod

theorem cbcEncrypt_allBytes (E : Bytes → Bytes)
    (hE : ∀ b : Bytes, b.length = 16 → (E b).length = 16)
    (hEb : ∀ b : Bytes, allBytes b → b.length = 16 → allBytes (E b)) :
    ∀ (data prev : Bytes), prev.length = 16 → allBytes prev → data.length % 16 = 0 →
      allBytes data → allBytes (cbcEncrypt E prev data) := by
  have main : ∀ n (data : Bytes), data.length = n → ∀ prev : Bytes, prev.length = 16 →
      allBytes prev → data.length % 16 = 0 → allBytes data →
      allBytes (cbcEncrypt E prev data) := by
    intro n
    induction n using Nat.strong_induction_on with
    | _ n ih =>
    intro data hn prev hprev hprevB hmod hdataB
    by_cases hnil : data = []
    · simp [hnil, cbcEncrypt_nil, allBytes]
    · have hpos : 0 < data.length := List.length_pos.mpr hnil
      have h16 : 16 ≤ data.length := by omega
      have hblock : (data.take 16).length = 16 := by
        simp [List.length_take]; omega
      have hx : (zipXor (data.take 16) prev).length = 16 := by
        rw [zipXor_length, hblock, hprev]; simp
      have hxB : allBytes (zipXor (data.take 16) prev) :=
        zipXor_allBytes _ _ (fun b hb => hdataB b (List.mem_of_mem_take hb)) hprevB
      have hcB : allBytes (E (zipXor (data.take 16) prev)) := hEb _ hxB hx
      have hcL : (E (zipXor (data.take 16) prev)).length = 16 := hE _ hx
      rw [cbcEncrypt_eq E prev data hnil]
      intro v hv
      rcases List.mem_append.mp hv with hv | hv
      · exact hcB v hv
      · exact ih (data.length - 16) (by omega) (data.drop 16)
          (by simp [List.length_drop, hn]) _ hcL hcB
          (by simp [List.length_drop]; omega)
          (fun b hb => hdataB b (List.mem_of_mem_drop hb)) v hv
  intro data prev hprev hprevB hmod hdataB
  exact main data.length data rfl prev hprev hprevB hmod hdataB

theorem cbc_roundtrip (E D : Bytes → Bytes)
    (hinv : ∀ b : Bytes, b.length = 16 → D (E b) = b)
    (hE : ∀ b : Bytes, b.length = 16 → (E b).length = 16) :
    ∀ (data prev : Bytes), prev.length = 16 → data.length % 16 = 0 →
      cbcDecrypt D prev (cbcEncrypt E prev data) = data := by
  have main : ∀ n (data : Bytes), data.length = n → ∀ prev : Bytes, prev.length = 16 →
      data.length % 16 = 0 → cbcDecrypt D prev (cbcEncrypt E prev data) = data := by
    intro n
    induction n using Nat.strong_induction_on with
    | _ n ih =>
    intro data hn prev hprev hmod
    by_cases hnil : data = []
    · simp [hnil, cbcEncrypt_nil, cbcDecrypt_nil]
    · have hpos : 0 < data.length := List.length_pos.mpr hnil
      have h16 : 16 ≤ data.length := by omega
      have hblock : (data.take 16).length = 16 := by
        simp [List.length_take]; omega
      have hx : (zipXor (data.take 16) prev).length = 16 := by
        rw [zipXor_length, hblock, hprev]; simp
      have hc : (E (zipXor (data.take 16) prev)).length = 16 := hE _ hx
      rw [cbcEncrypt_eq E prev data hnil]
      have hcnil : E (zipXor (data.take 16) prev) ++
          cbcEncrypt E (E (zipXor (data.take 16) prev)) (data.drop 16) ≠ [] := by
        intro h
        have := congrArg List.length h
        simp [hc] at this
      rw [cbcDecrypt_eq D prev _ hcnil]
      rw [List.take_left' hc, List.drop_left' hc]
      rw [hinv _ hx]
      rw [zipXor_cancel _ _ (by rw [hblock, hprev])]
      rw [ih (data.length - 16) (by omega) (data.drop 16)
        (by simp [List.length_drop, hn]) _ hc (by simp [List.length_drop]; omega)]
      exact List.take_append_drop 16 data
  intro data prev hprev hmod
  exact main data.length data rfl prev hprev hmod

/-- Value of one character of the urlsafe base64 alphabet.
`base64.urlsafe_b64decode` first translates minus to plus and underscore to
slash and then calls `base64.b64decode`, so both alphabets are accepted;
characters outside the alphabet yield `none` and are skipped by the
non-strict decoder, exactly as in CPython's `binascii.a2b_base64`. -/
def b64Val (c : Nat) : Option Nat :=
  if 65 ≤ c ∧ c ≤ 90 then some (c - 65)
  else if 97 ≤ c ∧ c ≤ 122 then some (c - 71)
  else if 48 ≤ c ∧ c ≤ 57 then some (c + 4)
  else if c = 43 ∨ c = 45 then some 62
  else if c = 47 ∨ c = 95 then some 63
  else none

/-- Character (urlsafe alphabet) for a 6-bit value, as emitted by
`base64.urlsafe_b64encode`. -/
def b64Char (v : Nat) : Nat :=
  if v < 26 then 65 + v
  else if v < 52 then 97 + (v - 26)
  else if v < 62 then 48 + (v - 52)
  else if v = 62 then 45
  else 95

/-- Model of `base64.urlsafe_b64encode`: 3-byte groups become 4 alphabet
characters; a trailing group of 1 or 2 bytes is closed with one or two
padding characters (61 is the code of the equals sign). -/
def b64encode : Bytes → Bytes
  | b0 :: b1 :: b2 :: rest =>
    b64Char (b0 / 4) :: b64Char (b0 % 4 * 16 + b1 / 16) ::
      b64Char (b1 % 16 * 4 + b2 / 64) :: b64Char (b2 % 64) :: b64encode rest
  | [b0, b1] => [b64Char (b0 / 4), b64Char (b0 % 4 * 16 + b1 / 16), b64Char (b1 % 16 * 4), 61]
  | [b0] => [b64Char (b0 / 4), b64Char (b0 % 4 * 16), 61, 61]
  | [] => []

/-- Decoder loop of CPython's `binascii.a2b_base64` in non-strict mode, the
code path behind `base64.urlsafe_b64decode`: invalid characters are skipped,
a padding character at quad position at least 2 that completes the quad ends
decoding, and leftover quad positions at the end of input raise
`binascii.Error` (modelled as `Except.error ()`). -/
def a2bLoop : List Nat → Nat → Nat → Nat → Bytes → Except Unit Bytes
  | [], quadPos, _, _, acc => if quadPos = 0 then .ok acc.reverse else .error ()
  | c :: rest, quadPos, leftchar, pads, acc =>
    if c = 61 then
      if 2 ≤ quadPos then
        if 4 ≤ quadPos + (pads + 1) then .ok acc.reverse
        else a2bLoop rest quadPos leftchar (pads + 1) acc
      else a2bLoop rest quadPos leftchar pads acc
    else
      match b64Val c with
      | none => a2bLoop rest quadPos leftchar pads acc
      | some v =>
        if quadPos = 0 then a2bLoop rest 1 v pads acc
        else if quadPos = 1 then a2bLoop rest 2 (v % 16) pads ((leftchar * 4 + v / 16) :: acc)
        else if quadPos = 2 then a2bLoop rest 3 (v % 4) pads ((leftchar * 16 + v / 4) :: acc)
        else a2bLoop rest 0 0 pads ((leftchar * 64 + v) :: acc)

/-- Model of `base64.urlsafe_b64decode`; the error models `binascii.Error`. -/
def b64urlDecode (s : Bytes) : Except Unit Bytes := a2bLoop s 0 0 0 []

theorem b64Val_b64Char (v : Nat) (h : v < 64) : b64Val (b64Char v) = some v ∧ b64Char v ≠ 61 := by
  revert h
  revert v
  decide

theorem a2bLoop_data0 (c v : Nat) (rest : List Nat) (lc p : Nat) (acc : Bytes)
    (hne : c ≠ 61) (hv : b64Val c = some v) :
    a2bLoop (c :: rest) 0 lc p acc = a2bLoop rest 1 v p acc := by
  simp [a2bLoop, hne, hv]

theorem a2bLoop_data1 (c v : Nat) (rest : List Nat) (lc p : Nat) (acc : Bytes)
    (hne : c ≠ 61) (hv : b64Val c = some v) :
    a2bLoop (c :: rest) 1 lc p acc = a2bLoop rest 2 (v % 16) p ((lc * 4 + v / 16) :: acc) := by
  simp [a2bLoop, hne, hv]

theorem a2bLoop_data2 (c v : Nat) (rest : List Nat) (lc p : Nat) (acc : Bytes)
    (hne : c ≠ 61) (hv : b64Val c = some v) :
    a2bLoop (c :: rest) 2 lc p acc = a2bLoop rest 3 (v % 4) p ((lc * 16 + v / 4) :: acc) := by
  simp [a2bLoop, hne, hv]

theorem a2bLoop_data3 (c v : Nat) (rest : List Nat) (lc p : Nat) (acc : Bytes)
    (hne : c ≠ 61) (hv : b64Val c = some v) :
    a2bLoop (c :: rest) 3 lc p acc = a2bLoop rest 0 0 p ((lc * 64 + v) :: acc) := by
  simp [a2bLoop, hne, hv]

theorem a2bLoop_pad3 (rest : List Nat) (lc : Nat) (acc : Bytes) :
    a2bLoop (61 :: rest) 3 lc 0 acc = .ok acc.reverse := by
  simp [a2bLoop]

theorem a2bLoop_pad2a (rest : List Nat) (lc : Nat) (acc : Bytes) :
    a2bLoop (61 :: rest) 2 lc 0 acc = a2bLoop rest 2 lc 1 acc := by
  simp [a2bLoop]

theorem a2bLoop_pad2b (rest : List Nat) (lc : Nat) (acc : Bytes) :
    a2bLoop (61 :: rest) 2 lc 1 acc = .ok acc.reverse := by
  simp [a2bLoop]

theorem a2bLoop_encode (x : Bytes) (hx : allBytes x) :
    ∀ acc : Bytes, a2bLoop (b64encode x) 0 0 0 acc = .ok (acc.reverse ++ x) := by
  induction x using b64encode.induct with
  | case1 b0 b1 b2 rest ih =>
    intro acc
    have hb0 : b0 < 256 := hx b0 (by simp)
    have hb1 : b1 < 256 := hx b1 (by simp)
    have hb2 : b2 < 256 := hx b2 (by simp)
    have h0 := b64Val_b64Char (b0 / 4) (by omega)
    have h1 := b64Val_b64Char (b0 % 4 * 16 + b1 / 16) (by omega)
    have h2 := b64Val_b64Char (b1 % 16 * 4 + b2 / 64) (by omega)
    have h3 := b64Val_b64Char (b2 % 64) (by omega)
    rw [b64encode]
    rw [a2bLoop_data0 _ _ _ _ _ _ h0.2 h0.1]
    rw [a2bLoop_data1 _ _ _ _ _ _ h1.2 h1.1]
    rw [a2bLoop_data2 _ _ _ _ _ _ h2.2 h2.1]
    rw [a2bLoop_data3 _ _ _ _ _ _ h3.2 h3.1]
    have e0 : b0 / 4 * 4 + (b0 % 4 * 16 + b1 / 16) / 16 = b0 := by omega
    have e1 : (b0 % 4 * 16 + b1 / 16) % 16 * 16 + (b1 % 16 * 4 + b2 / 64) / 4 = b1 := by omega
    have e2 : (b1 % 16 * 4 + b2 / 64) % 4 * 64 + b2 % 64 = b2 := by omega
    rw [e0, e1, e2]
    rw [ih (fun b hb => hx b (by simp [hb])) (b2 :: b1 :: b0 :: acc)]
    simp
  | case2 b0 b1 =>
    intro acc
    have hb0 : b0 < 256 := hx b0 (by simp)
    have hb1 : b1 < 256 := hx b1 (by simp)
    have h0 := b64Val_b64Char (b0 / 4) (by omega)
    have h1 := b64Val_b64Char (b0 % 4 * 16 + b1 / 16) (by omega)
    have h2 := b64Val_b64Char (b1 % 16 * 4) (by omega)
    rw [b64encode]
    rw [a2bLoop_data0 _ _ _ _ _ _ h0.2 h0.1]
    rw [a2bLoop_data1 _ _ _ _ _ _ h1.2 h1.1]
    rw [a2bLoop_data2 _ _ _ _ _ _ h2.2 h2.1]
    rw [a2bLoop_pad3]
    have e0 : b0 / 4 * 4 + (b0 % 4 * 16 + b1 / 16) / 16 = b0 := by omega
    have e1 : (b0 % 4 * 16 + b1 / 16) % 16 * 16 + b1 % 16 * 4 / 4 = b1 := by omega
    rw [e0, e1]
    simp
  | case3 b0 =>
    intro acc
    have hb0 : b0 < 256 := hx b0 (by simp)
    have h0 := b64Val_b64Char (b0 / 4) (by omega)
    have h1 := b64Val_b64Char (b0 % 4 * 16) (by omega)
    rw [b64encode]
    rw [a2bLoop_data0 _ _ _ _ _ _ h0.2 h0.1]
    rw [a2bLoop_data1 _ _ _ _ _ _ h1.2 h1.1]
    rw [a2bLoop_pad2a, a2bLoop_pad2b]
    have e0 : b0 / 4 * 4 + b0 % 4 * 16 / 16 = b0 := by omega
    rw [e0]
    simp
  | case4 =>
    intro acc
    rw [b64encode, a2bLoop]
    simp

theorem b64_roundtrip (x : Bytes) (hx : allBytes x) : b64urlDecode (b64encode x) = .ok x := by
  have := a2bLoop_encode x hx []
  simpa [b64urlDecode] using this

/-- Model of `constant_time_compare` from `utils/crypto.py`: functionally it
is byte-string equality (the constant-time execution property itself is a
timing property outside the embedding). -/
def constant_time_compare (val1 val2 : Bytes) : Bool := val1 == val2

theorem constant_time_compare_eq (val1 val2 : Bytes) :
    constant_time_compare val1 val2 = true ↔ val1 = val2 := by
  simp [constant_time_compare]

/-- Failures a signer's `unsign` can raise (`django.core.signing.BadSignature`
and its subclass `SignatureExpired`). -/
inductive SignerError where
  | badSignature
  | signatureExpired
deriving DecidableEq, Repr

/-- Big-endian 8-byte encoding, modelling `struct.pack('>Q', t)` for
`t < 2 ^ 64`. -/
def pack64 (t : Nat) : Bytes :=
  [t / 72057594037927936 % 256, t / 281474976710656 % 256, t / 1099511627776 % 256,
   t / 4294967296 % 256, t / 16777216 % 256, t / 65536 % 256, t / 256 % 256, t % 256]

/-- Big-endian reading of bytes, modelling `struct.unpack('>Q', b)`. -/
def unpack64 (b : Bytes) : Nat := b.foldl (fun acc x => acc * 256 + x) 0

theorem pack64_length (t : Nat) : (pack64 t).length = 8 := by
  simp [pack64]

theorem pack64_allBytes (t : Nat) : allBytes (pack64 t) := by
  intro b hb
  simp only [pack64, List.mem_cons, List.not_mem_nil, or_false] at hb
  rcases hb with h | h | h | h | h | h | h | h <;> (subst h; omega)

theorem unpack64_pack64 (t : Nat) (h : t < 18446744073709551616) :
    unpack64 (pack64 t) = t := by
  simp only [pack64, unpack64, List.foldl]
  omega

/-- Interface offered by signer objects to `FernetBytes` (the `Signer`
protocol of `django_cryptography/typing.py`); `unsign` takes the optional
ttl, with the signer's reading of the current clock already fixed. -/
structure SignerModel where
  sign : Bytes → Nat → Bytes
  unsign : Bytes → Option Nat → Except SignerError Bytes

/-- Modelled from the spec: `FernetSigner.sign` of
`django_cryptography/core/signing.py` (absent from the sources).  Per the
spec, `sign` binds the current time into the output and appends an HMAC
computed over the version byte, the 8-byte big-endian timestamp and the
value, keyed with the signer's key; the HMAC primitive itself is a
parameter. -/
def FernetSigner.sign (hmacFn : Bytes → Bytes → Bytes) (key value : Bytes) (t : Nat) : Bytes :=
  let payload := 128 :: (pack64 t ++ value)
  payload ++ hmacFn key payload

/-- Modelled from the spec: `FernetSigner.unsign` (absent from the sources).
It parses version byte, timestamp, value and trailing 32-byte digest
(SHA-256 size), fails with a bad-signature error on short input or version
mismatch, verifies the recomputed HMAC with `constant_time_compare`, and --
per the spec -- only after successful verification applies the ttl check,
failing with a signature-expired error when the token is too old. -/
def FernetSigner.unsign (hmacFn : Bytes → Bytes → Bytes) (key : Bytes) (now : Nat)
    (s : Bytes) (ttl : Option Nat) : Except SignerError Bytes :=
  if s.length < 41 then .error .badSignature
  else
    let version := s.headD 0
    let ts := unpack64 ((s.drop 1).take 8)
    let value := (s.drop 9).take (s.length - 41)
    let sig := s.drop (s.length - 32)
    if version ≠ 128 then .error .badSignature
    else if constant_time_compare sig (hmacFn key (version :: (pack64 ts ++ value))) then
      match ttl with
      | some maxAge => if ts + maxAge < now then .error .signatureExpired else .ok value
      | none => .ok value
    else .error .badSignature

/-- The signer object `FernetBytes` constructs by default: a `FernetSigner`
over a key, with the HMAC primitive and the unsign-time clock as
parameters. -/
def mkFernetSigner (hmacFn : Bytes → Bytes → Bytes) (key : Bytes) (now : Nat) : SignerModel :=
  ⟨fun v t => FernetSigner.sign hmacFn key v t,
   fun s ttl => FernetSigner.unsign hmacFn key now s ttl⟩

theorem fernetSigner_roundtrip (hmacFn : Bytes → Bytes → Bytes) (key : Bytes)
    (h32 : ∀ m : Bytes, (hmacFn key m).length = 32)
    (v : Bytes) (t now : Nat) (ht : t < 18446744073709551616) :
    FernetSigner.unsign hmacFn key now (FernetSigner.sign hmacFn key v t) none = .ok v := by
  unfold FernetSigner.sign FernetSigner.unsign
  simp only []
  set payload := 128 :: (pack64 t ++ v) with hpayload
  have hplen : payload.length = 9 + v.length := by
    simp [hpayload, pack64_length]
    omega
  have hslen : (payload ++ hmacFn key payload).length = 41 + v.length := by
    simp [List.length_append, hplen, h32]; omega
  rw [if_neg (by omega)]
  have hhead : (payload ++ hmacFn key payload).headD 0 = 128 := by
    simp [hpayload]
  have hdrop1 : (payload ++ hmacFn key payload).drop 1 =
      (pack64 t ++ v) ++ hmacFn key payload := by
    simp [hpayload]
  have hts : unpack64 (((payload ++ hmacFn key payload).drop 1).take 8) = t := by
    rw [hdrop1, List.append_assoc, List.take_left' (pack64_length t), unpack64_pack64 t ht]
  have hvalue : ((payload ++ hmacFn key payload).drop 9).take
      ((payload ++ hmacFn key payload).length - 41) = v := by
    rw [hslen]
    have h9 : (128 :: (pack64 t ++ v) ++ hmacFn key payload).drop 9 = v ++ hmacFn key payload := by
      have : (128 :: (pack64 t ++ v)) ++ hmacFn key payload =
          (128 :: pack64 t) ++ (v ++ hmacFn key payload) := by simp
      rw [hpayload, this, List.drop_left' (by simp [pack64_length])]
    rw [hpayload] at h9 ⊢
    rw [h9]
    have : 41 + v.length - 41 = v.length := by omega
    rw [this, List.take_left]
  have hsig : (payload ++ hmacFn key payload).drop
      ((payload ++ hmacFn key payload).length - 32) = hmacFn key payload := by
    rw [hslen]
    have : 41 + v.length - 32 = payload.length := by rw [hplen]; omega
    rw [this, List.drop_left]
  rw [hhead, hts, hvalue, hsig]
  rw [if_neg (by omega)]
  have : constant_time_compare (hmacFn key payload) (hmacFn key (128 :: (pack64 t ++ v))) = true := by
    rw [constant_time_compare_eq, hpayload]
  rw [if_pos this]

instance {ε α : Type} [DecidableEq ε] [DecidableEq α] : DecidableEq (Except ε α) := fun x y =>
  match x, y with
  | .error u, .error v =>
    match decEq u v with
    | isTrue h => isTrue (by rw [h])
    | isFalse h => isFalse (fun hh => h (Except.error.inj hh))
  | .ok u, .ok v =>
    match decEq u v with
    | isTrue h => isTrue (by rw [h])
    | isFalse h => isFalse (fun hh => h (Except.ok.inj hh))
  | .error _, .ok _ => isFalse (fun hh => Except.noConfusion hh)
  | .ok _, .error _ => isFalse (fun hh => Except.noConfusion hh)

/-- Outcomes of `FernetBytes.decrypt` / `Fernet.decrypt`: the repository's
`InvalidToken`, a propagated signer exception (no `try/except` surrounds the
`signer.unsign` call), or an uncaught `ValueError` from constructing
`Cipher(algorithms.AES(key), modes.CBC(iv))` with a bad key or IV length. -/
inductive DecryptError where
  | invalidToken
  | signerError (e : SignerError)
  | valueError
deriving DecidableEq, Repr

/-- Failure of `_encrypt_from_parts`: an uncaught `ValueError` from cipher
construction (invalid AES key length; the IV length check also lives
there). -/
inductive EncryptError where
  | valueError
deriving DecidableEq, Repr

/-- `FernetBytes._encrypt_from_parts`: PKCS7-pad, AES-CBC-encrypt under the
engine key with the given IV, then delegate to `signer.sign(iv ++ ct, t)`.
The library validates the AES key length and the 16-byte IV length when the
`Cipher` object is built. -/
def FernetBytes.encryptFromParts (C : BlockCipherModel) (S : SignerModel) (key : Bytes)
    (data : Bytes) (t : Nat) (iv : Bytes) : Except EncryptError Bytes :=
  let padded := pkcs7Pad data
  if aesValidKey key ∧ iv.length = 16 then
    .ok (S.sign (iv ++ cbcEncrypt (C.encryptBlock key) iv padded) t)
  else .error .valueError

/-- `FernetBytes.encrypt_at_time`: the source draws `iv = os.urandom(16)` and
calls `_encrypt_from_parts`; the freshly drawn IV is made an explicit
argument here. -/
def FernetBytes.encryptAtTime (C : BlockCipherModel) (S : SignerModel) (key : Bytes)
    (data : Bytes) (currentTime : Nat) (iv : Bytes) : Except EncryptError Bytes :=
  FernetBytes.encryptFromParts C S key data currentTime iv

/-- `FernetBytes.decrypt`: unsign (signer failures are NOT caught here — the
source has no `try/except` around `signer.unsign`), split off the 16-byte IV,
build the cipher (ValueError on bad key or IV length is equally uncaught),
then map the two caught `ValueError` paths — cipher finalization on a
ragged ciphertext and PKCS7 unpad failure — to `InvalidToken`. -/
def FernetBytes.decrypt (C : BlockCipherModel) (S : SignerModel) (key : Bytes)
    (data : Bytes) (ttl : Option Nat) : Except DecryptError Bytes :=
  match S.unsign data ttl with
  | .error e => .error (.signerError e)
  | .ok payload =>
    let iv := payload.take 16
    let ct := payload.drop 16
    if aesValidKey key ∧ iv.length = 16 then
      if ct.length % 16 = 0 then
        match pkcs7Unpad (cbcDecrypt (C.decryptBlock key) iv ct) with
        | some pt => .ok pt
        | none => .error .invalidToken
      else .error .invalidToken
    else .error .valueError

/-- `Fernet._encrypt_from_parts`: the `FernetBytes` payload, base64-url
encoded. -/
def Fernet.encryptFromParts (C : BlockCipherModel) (S : SignerModel) (key : Bytes)
    (data : Bytes) (t : Nat) (iv : Bytes) : Except EncryptError Bytes :=
  (FernetBytes.encryptFromParts C S key data t iv).map b64encode

/-- `Fernet.encrypt_at_time` as inherited from `FernetBytes`, dispatching to
the overridden `_encrypt_from_parts`. -/
def Fernet.encryptAtTime (C : BlockCipherModel) (S : SignerModel) (key : Bytes)
    (data : Bytes) (currentTime : Nat) (iv : Bytes) : Except EncryptError Bytes :=
  Fernet.encryptFromParts C S key data currentTime iv

/-- `Fernet.decrypt`: base64-url-decode first, raising `InvalidToken` on any
`binascii.Error` or `TypeError`, then delegate to `FernetBytes.decrypt`. -/
def Fernet.decrypt (C : BlockCipherModel) (S : SignerModel) (key : Bytes)
    (token : Bytes) (ttl : Option Nat) : Except DecryptError Bytes :=
  match b64urlDecode token with
  | .error _ => .error .invalidToken
  | .ok data => FernetBytes.decrypt C S key data ttl

/-- Engine state set up by `FernetBytes.__init__` / `Fernet.__init__`. -/
structure FernetCtx where
  key : Bytes
  signer : SignerModel

/-- `FernetBytes.__init__`: `self.key = key or settings.CRYPTOGRAPHY_KEY`
(Python `or`: a `None` or empty key falls back to the settings key). -/
def FernetBytes.init (settingsKey : Bytes) (key : Option Bytes) (signer : SignerModel) :
    FernetCtx :=
  ⟨match key with
    | none => settingsKey
    | some k => if k = [] then settingsKey else k,
   signer⟩

/-- Failures of `Fernet.__init__` with a supplied key: the explicit
`ValueError("Fernet key must be 32 url-safe base64-encoded bytes.")`, or the
`binascii.Error` that `base64.urlsafe_b64decode` raises on a malformed key
(uncaught in the source). -/
inductive InitError where
  | valueError
  | binasciiError
deriving DecidableEq, Repr

/-- `Fernet.__init__`: with `key=None` call `super().__init__()` (settings
key, fresh default signer); otherwise base64-url-decode the key, reject any
decoded length other than 32, and split: last 16 bytes become the engine
(encryption) key, first 16 bytes the key of a newly constructed signer of
the same class (`type(signer)(key[:16])`, abstracted as `mkSigner`). -/
def Fernet.init (mkSigner : Bytes → SignerModel) (defaultSigner : SignerModel)
    (settingsKey : Bytes) (key : Option Bytes) : Except InitError FernetCtx :=
  match key with
  | none => .ok (FernetBytes.init settingsKey none defaultSigner)
  | some kb =>
    match b64urlDecode kb with
    | .error _ => .error .binasciiError
    | .ok k =>
      if k.length ≠ 32 then .error .valueError
      else .ok (FernetBytes.init settingsKey (some (k.drop 16)) (mkSigner (k.take 16)))

/-- Digest algorithms of the `cryptography.hazmat.primitives.hashes` module
reachable via `getattr(hashes, algorithm.upper())` (external library,
modelled as an enumeration). -/
inductive HashAlg where
  | md5
  | sha1
  | sha224
  | sha256
  | sha384
  | sha512
deriving DecidableEq, Repr

/-- `digest_size` of each modelled algorithm, in bytes. -/
def digestSize : HashAlg → Nat
  | .md5 => 16
  | .sha1 => 20
  | .sha224 => 28
  | .sha256 => 32
  | .sha384 => 48
  | .sha512 => 64

theorem digestSize_pos (a : HashAlg) : 0 < digestSize a := by
  cases a <;> simp [digestSize]

/-- ASCII upper-casing of one byte, modelling `str.upper` on the ASCII
algorithm names accepted by `salted_hmac`. -/
def upperByte (c : Nat) : Nat := if 97 ≤ c ∧ c ≤ 122 then c - 32 else c

/-- `algorithm.upper()` over an ASCII name given as bytes. -/
def strUpper (s : Bytes) : Bytes := s.map upperByte

/-- Attribute lookup on the `hashes` module, modelling
`getattr(hashes, algorithm.upper())` over the upper-cased ASCII name:
`none` models the `AttributeError` for an unknown digest name. -/
def hashesLookup (s : Bytes) : Option HashAlg :=
  if s = [77, 68, 53] then some .md5
  else if s = [83, 72, 65, 49] then some .sha1
  else if s = [83, 72, 65, 50, 50, 52] then some .sha224
  else if s = [83, 72, 65, 50, 53, 54] then some .sha256
  else if s = [83, 72, 65, 51, 56, 52] then some .sha384
  else if s = [83, 72, 65, 53, 49, 50] then some .sha512
  else none

/-- The live HMAC handle `salted_hmac` returns: algorithm, derived key and
the value already fed through `update`. -/
structure HMACHandle where
  alg : HashAlg
  key : Bytes
  data : Bytes
deriving DecidableEq, Repr

/-- `finalize()` on the returned handle, with the HMAC primitive a
parameter. -/
def HMACHandle.finalize (hmacPrim : HashAlg → Bytes → Bytes → Bytes) (h : HMACHandle) : Bytes :=
  hmacPrim h.alg h.key h.data

/-- The `InvalidAlgorithm` error raised by `salted_hmac`. -/
inductive AlgorithmError where
  | invalidAlgorithm
deriving DecidableEq, Repr

/-- `salted_hmac` from `utils/crypto.py`: resolve the digest by name
(raising `InvalidAlgorithm` for an unknown name), derive
`key = digest(key_salt ++ secret)` with the hash primitive `digestPrim`
(external library, a parameter), then return an HMAC handle keyed with the
derived key and updated with `value`.  A `None` secret falls back to
`settings.SECRET_KEY`. -/
def salted_hmac (digestPrim : HashAlg → Bytes → Bytes) (settingsSecret : Bytes)
    (key_salt value : Bytes) (secret : Option Bytes) (algorithm : Bytes) :
    Except AlgorithmError HMACHandle :=
  let secret' := secret.getD settingsSecret
  match hashesLookup (strUpper algorithm) with
  | none => .error .invalidAlgorithm
  | some alg => .ok ⟨alg, digestPrim alg (key_salt ++ secret'), value⟩

/-- Big-endian 4-byte block counter encoding used inside PBKDF2. -/
def pack32 (i : Nat) : Bytes := [i / 16777216 % 256, i / 65536 % 256, i / 256 % 256, i % 256]

/-- Iterated-XOR loop of PBKDF2: `n` further applications of the PRF, XORed
into the accumulator. -/
def pbkdf2Loop (prf : Bytes → Bytes) : Nat → Bytes → Bytes → Bytes
  | 0, acc, _ => acc
  | n + 1, acc, u =>
    let u' := prf u
    pbkdf2Loop prf n (zipXor acc u') u'

/-- One PBKDF2 block `T_i = U_1 XOR ... XOR U_c` with
`U_1 = PRF(salt ++ INT(i))`. -/
def pbkdf2F (prf : Bytes → Bytes) (salt : Bytes) (iterations blockIdx : Nat) : Bytes :=
  let u1 := prf (salt ++ pack32 blockIdx)
  pbkdf2Loop prf (iterations - 1) u1 u1

/-- Standard PBKDF2-HMAC output: concatenate blocks `T_1, T_2, ...` and
truncate to `dklen` bytes (the `derive` of the external `PBKDF2HMAC`,
modelled). -/
def pbkdf2Derive (prf : Bytes → Bytes) (hLen : Nat) (salt : Bytes)
    (iterations dklen : Nat) : Bytes :=
  let n := (dklen + hLen - 1) / hLen
  (((List.range n).map (fun i => pbkdf2F prf salt iterations (i + 1))).flatten).take dklen

/-- `pbkdf2` from `utils/crypto.py`: `digest` defaults to SHA-256 when not
supplied, `dklen` falls back to the digest's output size when zero, and the
key material comes from PBKDF2-HMAC over the given iteration count.  The
HMAC primitive is a parameter `hmacPrim alg key message`. -/
def pbkdf2 (hmacPrim : HashAlg → Bytes → Bytes → Bytes) (password salt : Bytes)
    (iterations : Nat) (dklen : Nat) (digest : Option HashAlg) : Bytes :=
  let d := digest.getD .sha256
  let dk := if dklen = 0 then digestSize d else dklen
  pbkdf2Derive (hmacPrim d password) (digestSize d) salt iterations dk

theorem fernetSignerSign_allBytes (hmacFn : Bytes → Bytes → Bytes) (skey v : Bytes) (t : Nat)
    (hv : allBytes v) (hh : ∀ m : Bytes, allBytes (hmacFn skey m)) :
    allBytes (FernetSigner.sign hmacFn skey v t) := by
  intro b hb
  simp only [FernetSigner.sign, List.mem_append, List.mem_cons] at hb
  rcases hb with (hb | hb | hb) | hb
  · omega
  · exact pack64_allBytes t b hb
  · exact hv b hb
  · exact hh _ b hb

theorem fernet_core_roundtrip (C : BlockCipherModel) (key : Bytes) (hk : aesValidKey key)
    (hinv : ∀ b : Bytes, b.length = 16 → C.decryptBlock key (C.encryptBlock key b) = b)
    (hElen : ∀ b : Bytes, b.length = 16 → (C.encryptBlock key b).length = 16)
    (hmacFn : Bytes → Bytes → Bytes) (skey : Bytes)
    (h32 : ∀ m : Bytes, (hmacFn skey m).length = 32)
    (d iv : Bytes) (hiv : iv.length = 16) (t now : Nat) (ht : t < 18446744073709551616) :
    FernetBytes.encryptAtTime C (mkFernetSigner hmacFn skey now) key d t iv =
      .ok (FernetSigner.sign hmacFn skey
        (iv ++ cbcEncrypt (C.encryptBlock key) iv (pkcs7Pad d)) t) ∧
    FernetBytes.decrypt C (mkFernetSigner hmacFn skey now) key
      (FernetSigner.sign hmacFn skey
        (iv ++ cbcEncrypt (C.encryptBlock key) iv (pkcs7Pad d)) t) none = .ok d := by
  have hct : (cbcEncrypt (C.encryptBlock key) iv (pkcs7Pad d)).length = (pkcs7Pad d).length :=
    cbcEncrypt_length _ hElen _ _ hiv (pkcs7Pad_length_mod d)
  constructor
  · unfold FernetBytes.encryptAtTime FernetBytes.encryptFromParts
    rw [if_pos ⟨hk, hiv⟩]
    rfl
  · unfold FernetBytes.decrypt
    have hunsign : (mkFernetSigner hmacFn skey now).unsign
        (FernetSigner.sign hmacFn skey
          (iv ++ cbcEncrypt (C.encryptBlock key) iv (pkcs7Pad d)) t) none =
        .ok (iv ++ cbcEncrypt (C.encryptBlock key) iv (pkcs7Pad d)) := by
      exact fernetSigner_roundtrip hmacFn skey h32 _ t now ht
    rw [hunsign]
    simp only []
    rw [List.take_left' hiv, List.drop_left' hiv]
    rw [if_pos ⟨hk, hiv⟩]
    rw [if_pos (by rw [hct]; exact pkcs7Pad_length_mod d)]
    rw [cbc_roundtrip _ _ hinv hElen _ _ hiv (pkcs7Pad_length_mod d)]
    rw [pkcs7_roundtrip]

/-- C1: for every byte payload `d` and valid key, decrypting (with no ttl)
the token produced by `encrypt_at_time(d, t)` returns exactly `d`, for both
`FernetBytes` and the base64 `Fernet` variant.  The AES block maps and HMAC
are the external primitives, assumed inverse/length-preserving byte maps;
the signer is the spec-modelled default `FernetSigner`. -/
theorem fernet_roundtrip_C1 (C : BlockCipherModel) (key : Bytes) (hk : aesValidKey key)
    (hinv : ∀ b : Bytes, b.length = 16 → C.decryptBlock key (C.encryptBlock key b) = b)
    (hElen : ∀ b : Bytes, b.length = 16 → (C.encryptBlock key b).length = 16)
    (hEbytes : ∀ b : Bytes, allBytes b → b.length = 16 → allBytes (C.encryptBlock key b))
    (hmacFn : Bytes → Bytes → Bytes) (skey : Bytes)
    (h32 : ∀ m : Bytes, (hmacFn skey m).length = 32)
    (hhB : ∀ m : Bytes, allBytes (hmacFn skey m))
    (d iv : Bytes) (hd : allBytes d) (hiv : iv.length = 16) (hivB : allBytes iv)
    (t now : Nat) (ht : t < 18446744073709551616) :
    (∀ tok : Bytes,
      FernetBytes.encryptAtTime C (mkFernetSigner hmacFn skey now) key d t iv = .ok tok →
      FernetBytes.decrypt C (mkFernetSigner hmacFn skey now) key tok none = .ok d) ∧
    (∀ tok : Bytes,
      Fernet.encryptAtTime C (mkFernetSigner hmacFn skey now) key d t iv = .ok tok →
      Fernet.decrypt C (mkFernetSigner hmacFn skey now) key tok none = .ok d) := by
  have core := fernet_core_roundtrip C key hk hinv hElen hmacFn skey h32 d iv hiv t now ht
  have hsignB : allBytes (FernetSigner.sign hmacFn skey
      (iv ++ cbcEncrypt (C.encryptBlock key) iv (pkcs7Pad d)) t) := by
    apply fernetSignerSign_allBytes
    · intro b hb
      rcases List.mem_append.mp hb with hb | hb
      · exact hivB b hb
      · exact cbcEncrypt_allBytes _ hElen hEbytes _ _ hiv hivB
          (pkcs7Pad_length_mod d) (pkcs7Pad_allBytes d hd) b hb
    · exact hhB
  constructor
  · intro tok htok
    rw [core.1] at htok
    cases htok
    exact core.2
  · intro tok htok
    unfold Fernet.encryptAtTime Fernet.encryptFromParts at htok
    rw [FernetBytes.encryptAtTime] at core
    rw [core.1] at htok
    simp only [Except.map] at htok
    cases htok
    unfold Fernet.decrypt
    rw [b64_roundtrip _ hsignB]
    exact core.2

/-- Identity 16-byte block maps standing in for AES in concrete witnesses. -/
def wCipher : BlockCipherModel := ⟨fun _ b => b, fun _ b => b⟩

/-- Constant 32-byte HMAC primitive for concrete witnesses. -/
def wHmac : Bytes → Bytes → Bytes := fun _ _ => List.replicate 32 0

/-- 16-byte zero key for concrete witnesses. -/
def wKey : Bytes := List.replicate 16 0

/-- 16-byte zero IV for concrete witnesses. -/
def wIV : Bytes := List.replicate 16 0

/-- Default signer instance for concrete witnesses. -/
def wSigner : SignerModel := mkFernetSigner wHmac wKey 0

theorem wHmac_length (k m : Bytes) : (wHmac k m).length = 32 := by simp [wHmac]

theorem wHmac_allBytes (k m : Bytes) : allBytes (wHmac k m) := by
  intro b hb
  simp only [wHmac, List.mem_replicate] at hb
  omega

theorem fernet_roundtrip_C1_witness :
    FernetBytes.encryptAtTime wCipher wSigner wKey [1, 2, 3] 1000 wIV =
      .ok (FernetSigner.sign wHmac wKey
        (wIV ++ cbcEncrypt (wCipher.encryptBlock wKey) wIV (pkcs7Pad [1, 2, 3])) 1000) ∧
    FernetBytes.decrypt wCipher wSigner wKey
      (FernetSigner.sign wHmac wKey
        (wIV ++ cbcEncrypt (wCipher.encryptBlock wKey) wIV (pkcs7Pad [1, 2, 3])) 1000) none =
      .ok [1, 2, 3] ∧
    Fernet.decrypt wCipher wSigner wKey
      (b64encode (FernetSigner.sign wHmac wKey
        (wIV ++ cbcEncrypt (wCipher.encryptBlock wKey) wIV (pkcs7Pad [1, 2, 3])) 1000)) none =
      .ok [1, 2, 3] := by
  refine ⟨by decide, ?_, ?_⟩
  · exact (fernet_roundtrip_C1 wCipher wKey (by decide) (fun b _ => rfl) (fun b h => h)
      (fun b hb _ => hb) wHmac wKey (fun m => wHmac_length wKey m) (fun m => wHmac_allBytes wKey m)
      [1, 2, 3] wIV (by decide) (by decide) (by decide) 1000 0 (by decide)).1
      _ (by decide)
  · exact (fernet_roundtrip_C1 wCipher wKey (by decide) (fun b _ => rfl) (fun b h => h)
      (fun b hb _ => hb) wHmac wKey (fun m => wHmac_length wKey m) (fun m => wHmac_allBytes wKey m)
      [1, 2, 3] wIV (by decide) (by decide) (by decide) 1000 0 (by decide)).2
      _ (by decide)

theorem decrypt_error_ne (e : SignerError) :
    (Except.error (DecryptError.signerError e) : Except DecryptError Bytes) ≠
      .error .invalidToken := by
  intro h
  cases h

/-- C2 counterexample: on the empty token the spec-modelled signer raises a
bad-signature error and `FernetBytes.decrypt` — which wraps no `try/except`
around `signer.unsign` — surfaces exactly that signer error, not
`InvalidToken`, refuting the claim that every signer failure reaches the
caller as `InvalidToken`. -/
theorem signer_error_escapes_C2_cex :
    FernetBytes.decrypt wCipher wSigner wKey [] none =
      .error (.signerError .badSignature) ∧
    FernetBytes.decrypt wCipher wSigner wKey [] none ≠ .error .invalidToken := by
  constructor
  · decide
  · decide

/-- C2 (amended): every failure of `signer.unsign` propagates out of
`FernetBytes.decrypt` unchanged, as the corresponding signer error
(BadSignature / SignatureExpired); it is NOT translated to `InvalidToken`
(the source has no `try/except` around the `unsign` call). -/
theorem signer_error_propagates_C2 (C : BlockCipherModel) (S : SignerModel)
    (key token : Bytes) (ttl : Option Nat) (e : SignerError)
    (hu : S.unsign token ttl = .error e) :
    FernetBytes.decrypt C S key token ttl = .error (.signerError e) := by
  unfold FernetBytes.decrypt
  rw [hu]

theorem signer_error_propagates_C2_witness :
    wSigner.unsign [0] none = .error .badSignature ∧
    FernetBytes.decrypt wCipher wSigner wKey [0] none =
      .error (.signerError .badSignature) :=
  ⟨by decide, signer_error_propagates_C2 wCipher wSigner wKey [0] none .badSignature (by decide)⟩

/-- C3: with a supplied key whose base64-url decoding has exactly 32 bytes,
`Fernet.__init__` splits positionally — the last 16 decoded bytes become the
engine's AES key and a signer of the supplied signer's class is constructed
over the first 16 bytes. -/
theorem fernet_key_split_C3 (mkSigner : Bytes → SignerModel) (defaultSigner : SignerModel)
    (settingsKey keyB k : Bytes) (hdec : b64urlDecode keyB = .ok k) (hlen : k.length = 32) :
    Fernet.init mkSigner defaultSigner settingsKey (some keyB) =
      .ok ⟨k.drop 16, mkSigner (k.take 16)⟩ := by
  simp only [Fernet.init, hdec]
  rw [if_neg (by omega)]
  unfold FernetBytes.init
  have hne : k.drop 16 ≠ [] := by
    intro h
    have := congrArg List.length h
    simp [List.length_drop, hlen] at this
  simp [hne]

theorem fernet_key_split_C3_witness :
    Fernet.init (fun kk => mkFernetSigner wHmac kk 0) wSigner wKey
      (some (b64encode (List.range 32))) =
      .ok ⟨(List.range 32).drop 16, mkFernetSigner wHmac ((List.range 32).take 16) 0⟩ :=
  fernet_key_split_C3 (fun kk => mkFernetSigner wHmac kk 0) wSigner wKey
    (b64encode (List.range 32)) (List.range 32) (by decide) (by decide)

/-- C4: with a supplied key that decodes, a decoded length other than 32
raises the key-format `ValueError` at construction time, and a decoded
length of exactly 32 constructs the engine successfully. -/
theorem fernet_key_length_C4 (mkSigner : Bytes → SignerModel) (defaultSigner : SignerModel)
    (settingsKey keyB k : Bytes) (hdec : b64urlDecode keyB = .ok k) :
    (k.length ≠ 32 →
      Fernet.init mkSigner defaultSigner settingsKey (some keyB) = .error .valueError) ∧
    (k.length = 32 →
      Fernet.init mkSigner defaultSigner settingsKey (some keyB) =
        .ok (FernetBytes.init settingsKey (some (k.drop 16)) (mkSigner (k.take 16)))) := by
  constructor
  · intro h
    simp only [Fernet.init, hdec]
    rw [if_pos h]
  · intro h
    simp only [Fernet.init, hdec]
    rw [if_neg (by omega)]

theorem fernet_key_length_C4_witness :
    Fernet.init (fun kk => mkFernetSigner wHmac kk 0) wSigner wKey
      (some (b64encode (List.replicate 16 7))) = .error .valueError ∧
    Fernet.init (fun kk => mkFernetSigner wHmac kk 0) wSigner wKey
      (some (b64encode (List.replicate 32 7))) =
      .ok (FernetBytes.init wKey (some ((List.replicate 32 7).drop 16))
        (mkFernetSigner wHmac ((List.replicate 32 7).take 16) 0)) := by
  constructor
  · exact (fernet_key_length_C4 (fun kk => mkFernetSigner wHmac kk 0) wSigner wKey
      (b64encode (List.replicate 16 7)) (List.replicate 16 7) (by decide)).1 (by decide)
  · exact (fernet_key_length_C4 (fun kk => mkFernetSigner wHmac kk 0) wSigner wKey
      (b64encode (List.replicate 32 7)) (List.replicate 32 7) (by decide)).2 (by decide)

/-- C5: whenever base64-url decoding of the token fails (the `binascii.Error`
branch), `Fernet.decrypt` raises `InvalidToken`. -/
theorem b64_failure_invalidtoken_C5 (C : BlockCipherModel) (S : SignerModel)
    (key token : Bytes) (ttl : Option Nat) (hdec : b64urlDecode token = .error ()) :
    Fernet.decrypt C S key token ttl = .error .invalidToken := by
  unfold Fernet.decrypt
  rw [hdec]

theorem b64_failure_invalidtoken_C5_witness :
    b64urlDecode [65, 66, 67] = .error () ∧
    Fernet.decrypt wCipher wSigner wKey [65, 66, 67] none = .error .invalidToken ∧
    b64urlDecode [65, 35] = .error () ∧
    Fernet.decrypt wCipher wSigner wKey [65, 35] none = .error .invalidToken :=
  ⟨by decide,
   b64_failure_invalidtoken_C5 wCipher wSigner wKey [65, 66, 67] none (by decide),
   by decide,
   b64_failure_invalidtoken_C5 wCipher wSigner wKey [65, 35] none (by decide)⟩

/-- C6: when `signer.unsign` succeeds, both caught ValueError paths in
`FernetBytes.decrypt` — AES-CBC finalization rejecting a ciphertext whose
length is not a block multiple, and PKCS7 unpadding finding malformed
padding — are mapped to `InvalidToken`. -/
theorem decrypt_invalidtoken_C6 (C : BlockCipherModel) (S : SignerModel)
    (key token payload : Bytes) (ttl : Option Nat)
    (hu : S.unsign token ttl = .ok payload) (hk : aesValidKey key)
    (hlen : 16 ≤ payload.length) :
    ((payload.drop 16).length % 16 ≠ 0 →
      FernetBytes.decrypt C S key token ttl = .error .invalidToken) ∧
    (pkcs7Unpad (cbcDecrypt (C.decryptBlock key) (payload.take 16) (payload.drop 16)) = none →
      FernetBytes.decrypt C S key token ttl = .error .invalidToken) := by
  have hiv : (payload.take 16).length = 16 := by
    simp [List.length_take]
    omega
  constructor
  · intro hmod
    simp only [FernetBytes.decrypt, hu]
    rw [if_pos ⟨hk, hiv⟩, if_neg hmod]
  · intro hpad
    simp only [FernetBytes.decrypt, hu]
    rw [if_pos ⟨hk, hiv⟩]
    by_cases hmod : (payload.drop 16).length % 16 = 0
    · rw [if_pos hmod, hpad]
    · rw [if_neg hmod]

theorem decrypt_invalidtoken_C6_witness :
    wSigner.unsign (FernetSigner.sign wHmac wKey (List.replicate 17 0) 0) none =
      .ok (List.replicate 17 0) ∧
    FernetBytes.decrypt wCipher wSigner wKey
      (FernetSigner.sign wHmac wKey (List.replicate 17 0) 0) none = .error .invalidToken ∧
    pkcs7Unpad (cbcDecrypt (wCipher.decryptBlock wKey) ((List.replicate 32 0).take 16)
      ((List.replicate 32 0).drop 16)) = none ∧
    FernetBytes.decrypt wCipher wSigner wKey
      (FernetSigner.sign wHmac wKey (List.replicate 32 0) 0) none = .error .invalidToken :=
  ⟨by decide,
   (decrypt_invalidtoken_C6 wCipher wSigner wKey
     (FernetSigner.sign wHmac wKey (List.replicate 17 0) 0) (List.replicate 17 0) none
     (by decide) (by decide) (by decide)).1 (by decide),
   by decide,
   (decrypt_invalidtoken_C6 wCipher wSigner wKey
     (FernetSigner.sign wHmac wKey (List.replicate 32 0) 0) (List.replicate 32 0) none
     (by decide) (by decide) (by decide)).2 (by decide)⟩

/-- C7: `salted_hmac` resolves the digest by upper-cased name; on success the
returned handle is the HMAC of `value` keyed with the derived key
`digest(key_salt ++ secret)` under the same digest, and on an unknown name
it raises `InvalidAlgorithm`. -/
theorem salted_hmac_C7 (digestPrim : HashAlg → Bytes → Bytes)
    (hmacPrim : HashAlg → Bytes → Bytes → Bytes) (settingsSecret key_salt value : Bytes)
    (secret : Option Bytes) (algorithm : Bytes) :
    (∀ a : HashAlg, hashesLookup (strUpper algorithm) = some a →
      salted_hmac digestPrim settingsSecret key_salt value secret algorithm =
        .ok ⟨a, digestPrim a (key_salt ++ secret.getD settingsSecret), value⟩ ∧
      HMACHandle.finalize hmacPrim
          ⟨a, digestPrim a (key_salt ++ secret.getD settingsSecret), value⟩ =
        hmacPrim a (digestPrim a (key_salt ++ secret.getD settingsSecret)) value) ∧
    (hashesLookup (strUpper algorithm) = none →
      salted_hmac digestPrim settingsSecret key_salt value secret algorithm =
        .error .invalidAlgorithm) := by
  constructor
  · intro a ha
    constructor
    · unfold salted_hmac
      rw [ha]
    · rfl
  · intro ha
    unfold salted_hmac
    rw [ha]

theorem salted_hmac_C7_witness :
    hashesLookup (strUpper [115, 104, 97, 50, 53, 54]) = some .sha256 ∧
    salted_hmac (fun _ m => m) [9] [1] [2] none [115, 104, 97, 50, 53, 54] =
      .ok ⟨.sha256, [1] ++ [9], [2]⟩ ∧
    hashesLookup (strUpper [120, 121, 122]) = none ∧
    salted_hmac (fun _ m => m) [9] [1] [2] none [120, 121, 122] =
      .error .invalidAlgorithm :=
  ⟨by decide,
   ((salted_hmac_C7 (fun _ m => m) (fun _ k m => k ++ m) [9] [1] [2] none
     [115, 104, 97, 50, 53, 54]).1 .sha256 (by decide)).1,
   by decide,
   (salted_hmac_C7 (fun _ m => m) (fun _ k m => k ++ m) [9] [1] [2] none
     [120, 121, 122]).2 (by decide)⟩

theorem pbkdf2Loop_length (prf : Bytes → Bytes) (hLen : Nat)
    (h : ∀ m : Bytes, (prf m).length = hLen) :
    ∀ (n : Nat) (acc u : Bytes), acc.length = hLen →
      (pbkdf2Loop prf n acc u).length = hLen := by
  intro n
  induction n with
  | zero => intro acc u ha; simpa [pbkdf2Loop] using ha
  | succ m ih =>
    intro acc u ha
    simp only [pbkdf2Loop]
    apply ih
    rw [zipXor_length, ha, h]
    simp

theorem pbkdf2F_length (prf : Bytes → Bytes) (hLen : Nat)
    (h : ∀ m : Bytes, (prf m).length = hLen) (salt : Bytes) (iterations i : Nat) :
    (pbkdf2F prf salt iterations i).length = hLen := by
  unfold pbkdf2F
  exact pbkdf2Loop_length prf hLen h _ _ _ (h _)

theorem pbkdf2Derive_length (prf : Bytes → Bytes) (hLen : Nat)
    (h : ∀ m : Bytes, (prf m).length = hLen) (hpos : 0 < hLen)
    (salt : Bytes) (iterations dklen : Nat) :
    (pbkdf2Derive prf hLen salt iterations dklen).length = dklen := by
  unfold pbkdf2Derive
  rw [List.length_take, List.length_flatten, List.map_map]
  have hconst : (List.length ∘ fun i => pbkdf2F prf salt iterations (i + 1)) =
      fun _ : Nat => hLen := by
    funext i
    simp [Function.comp, pbkdf2F_length prf hLen h]
  rw [hconst, List.map_const', List.sum_replicate, List.length_range, smul_eq_mul]
  have h1 := Nat.div_add_mod (dklen + hLen - 1) hLen
  have h2 : (dklen + hLen - 1) % hLen < hLen := Nat.mod_lt _ hpos
  set q := (dklen + hLen - 1) / hLen with hq
  set m := hLen * q with hm
  have hle : dklen ≤ q * hLen := by
    rw [Nat.mul_comm q hLen, ← hm]
    omega
  omega

/-- C8: `pbkdf2` defaults the digest to SHA-256 when unspecified, defaults
`dklen` to the digest's output size when zero, and returns exactly the
effective `dklen` bytes of PBKDF2-HMAC material for the given iteration
count. -/
theorem pbkdf2_C8 (hmacPrim : HashAlg → Bytes → Bytes → Bytes)
    (hh : ∀ (a : HashAlg) (k m : Bytes), (hmacPrim a k m).length = digestSize a)
    (password salt : Bytes) (iterations dklen : Nat) (digest : Option HashAlg) :
    pbkdf2 hmacPrim password salt iterations dklen none =
      pbkdf2 hmacPrim password salt iterations dklen (some .sha256) ∧
    pbkdf2 hmacPrim password salt iterations 0 digest =
      pbkdf2Derive (hmacPrim (digest.getD .sha256) password)
        (digestSize (digest.getD .sha256)) salt iterations
        (digestSize (digest.getD .sha256)) ∧
    (pbkdf2 hmacPrim password salt iterations dklen digest).length =
      (if dklen = 0 then digestSize (digest.getD .sha256) else dklen) := by
  refine ⟨rfl, ?_, ?_⟩
  · unfold pbkdf2
    simp
  · unfold pbkdf2
    by_cases h0 : dklen = 0
    · simp only [h0, if_pos rfl]
      exact pbkdf2Derive_length _ _ (fun m => hh _ _ m) (digestSize_pos _) _ _ _
    · simp only [if_neg h0]
      exact pbkdf2Derive_length _ _ (fun m => hh _ _ m) (digestSize_pos _) _ _ _

/-- Constant HMAC primitive per digest size, for the C8 witness. -/
def wHmacPrim : HashAlg → Bytes → Bytes → Bytes :=
  fun a _ _ => List.replicate (digestSize a) 0

theorem pbkdf2_C8_witness :
    pbkdf2 wHmacPrim [1] [2] 3 5 none = pbkdf2 wHmacPrim [1] [2] 3 5 (some .sha256) ∧
    pbkdf2 wHmacPrim [1] [2] 3 0 (some .sha1) =
      pbkdf2Derive (wHmacPrim .sha1 [1]) (digestSize .sha1) [2] 3 (digestSize .sha1) ∧
    (pbkdf2 wHmacPrim [1] [2] 3 5 (some .sha1)).length =
      (if 5 = 0 then digestSize ((some HashAlg.sha1).getD .sha256) else 5) := by
  have h1 := pbkdf2_C8 wHmacPrim (fun a k m => List.length_replicate _ _) [1] [2] 3 5 (some .sha1)
  exact ⟨h1.1, (pbkdf2_C8 wHmacPrim (fun a k m => List.length_replicate _ _)
    [1] [2] 3 5 (some .sha1)).2.1, h1.2.2⟩

/-- C9: constructing `Fernet` with `key=None` takes the `super().__init__()`
path: no base64 decoding, no length validation and no key splitting happen,
so no key-format error can arise; the settings-supplied default key is used
directly (whatever its length) and a fresh default signer is installed. -/
theorem fernet_none_key_C9 (mkSigner : Bytes → SignerModel) (defaultSigner : SignerModel)
    (settingsKey : Bytes) :
    Fernet.init mkSigner defaultSigner settingsKey none = .ok ⟨settingsKey, defaultSigner⟩ := rfl

/-- C10: when `signer.unsign` returns a payload of fewer than 16 bytes,
`FernetBytes.decrypt` does not raise `InvalidToken`: the slice `data[:16]`
yields a short IV without error and `modes.CBC(iv)` validation inside the
`Cipher` constructor raises an uncaught ValueError, escaping the
`InvalidToken` collapse. -/
theorem short_payload_valueerror_C10 (C : BlockCipherModel) (S : SignerModel)
    (key token payload : Bytes) (ttl : Option Nat)
    (hu : S.unsign token ttl = .ok payload) (hshort : payload.length < 16)
    (hk : aesValidKey key) :
    FernetBytes.decrypt C S key token ttl = .error .valueError ∧
    FernetBytes.decrypt C S key token ttl ≠ .error .invalidToken := by
  have hiv : (payload.take 16).length ≠ 16 := by
    simp [List.length_take]
    omega
  have hres : FernetBytes.decrypt C S key token ttl = .error .valueError := by
    simp only [FernetBytes.decrypt, hu]
    rw [if_neg (fun hand => hiv hand.2)]
  refine ⟨hres, ?_⟩
  rw [hres]
  intro h
  cases h

theorem short_payload_valueerror_C10_witness :
    wSigner.unsign (FernetSigner.sign wHmac wKey [] 0) none = .ok [] ∧
    FernetBytes.decrypt wCipher wSigner wKey (FernetSigner.sign wHmac wKey [] 0) none =
      .error .valueError :=
  ⟨by decide,
   (short_payload_valueerror_C10 wCipher wSigner wKey (FernetSigner.sign wHmac wKey [] 0)
     [] none (by decide) (by decide) (by decide)).1⟩
